import Mathlib

/-!
Shallow embedding of `bgzf_rust_reader` (src/src/lib.rs) and verification of the
specification claims about it.

Modelling conventions:
* A file is a `List Nat` of bytes; each access truncates with `% 256` (the Rust
  file yields `u8`s).
* `read_exact_at` succeeds iff the requested range lies inside the file (or the
  request is empty), mirroring `positioned_io::ReadAt` for `File`.
* Machine integers are `Nat`/`Int`; the explicit casts of the source
  (`as u32`, `as i32`) are modelled with `% 2^32` and reinterpretation, and
  subtraction/addition follow Rust's checked (debug) semantics: an
  underflow/overflow is a Rust panic, modelled by the `crash` result.
* Rust panics (checked arithmetic, slice-index out of bounds,
  `copy_from_slice` length mismatch, `Option::unwrap` on `None`) are the
  `crash` constructors below.
* The `libdeflater` decompressor is an external collaborator; it is modelled as
  a pure oracle `DecompFn` returning the byte count it reports together with
  the bytes it writes into the pre-sized output buffer.
* The `BTreeMap` block index is modelled as an association list in key order;
  during construction keys are inserted in strictly increasing order, so
  insertion is an append.
-/

/-- One parsed BGZF block descriptor (`struct BgzfBlock` in src/lib.rs). -/
structure BgzfBlock where
  data_offset : Nat
  data_length : Nat
  input_length : Nat
  block_size : Nat
deriving DecidableEq, Repr

/-- The single-slot decoded-block cache (`struct Cache` in src/lib.rs). -/
structure Cache where
  pos : Nat
  uncompressed_data : List Nat
deriving DecidableEq, Repr

/-- The reader state (`struct BgzfReader` in src/lib.rs). The `File` handle is
modelled by the byte list `bgzf_file`. -/
structure BgzfReader where
  bgzf_file : List Nat
  block_tree : List (Nat × BgzfBlock)
  input_length : Nat
  current_read_position : Nat
  pos : Nat
  cache : Option Cache
deriving DecidableEq, Repr

/-- Result of `read_block`: a parsed descriptor, the terminal marker `ok none`,
an `Err` return, or a Rust panic (`crash`). -/
inductive RBResult where
  | ok : Option BgzfBlock → RBResult
  | err : RBResult
  | crash : RBResult
deriving DecidableEq, Repr

/-- Result of `BgzfReader::new`: a reader, an `Err` return (file open failure),
or a Rust panic (`crash`). -/
inductive NewResult where
  | ok : BgzfReader → NewResult
  | err : NewResult
  | crash : NewResult
deriving DecidableEq, Repr

/-- Result of `BgzfReader::read`: `ok` carries the returned `i32`, the reader
state and the caller's buffer after the call; `err` carries the error message
and the state at the moment of the early return; `crash` is a Rust panic. -/
inductive ReadResult where
  | ok : Int → BgzfReader → List Nat → ReadResult
  | err : String → BgzfReader → List Nat → ReadResult
  | crash : ReadResult
deriving DecidableEq, Repr

/-- Byte `i` of the file (files hold `u8` values). -/
def fileByte (file : List Nat) (i : Nat) : Nat := (file.getD i 0) % 256

/-- Whether `read_exact_at` at offset `p` for `n` bytes succeeds: an empty read
always does, otherwise the whole range must lie inside the file. -/
def readExactOk (file : List Nat) (p n : Nat) : Bool :=
  n = 0 ∨ p + n ≤ file.length

/-- Footer step of `read_block` (src/lib.rs lines 321-344): given the payload
offset, the payload length and the block size, skip payload and CRC, read the
4-byte little-endian `ISIZE`; `ok none` is the terminal (zero-length) block. -/
def readBlockFooter (file : List Nat) (data_offset data_length block_size : Nat) : RBResult :=
  let p2 : Nat := data_offset + data_length + 4
  if file.length < p2 + 4 then RBResult.err
  else
    let i_size : Nat := Nat.lor (fileByte file p2)
      (Nat.lor ((fileByte file (p2 + 1)) <<< 8)
        (Nat.lor ((fileByte file (p2 + 2)) <<< 16)
          ((fileByte file (p2 + 3)) <<< 24)))
    if i_size = 0 then RBResult.ok none
    else RBResult.ok (some ⟨data_offset, data_length, i_size, block_size⟩)

/-- Extra-field step of `read_block` (src/lib.rs lines 310-320): validate the
`BC` subfield, extract `BSIZE`, compute `data_length = BSIZE - XLEN - 19` with
checked `u16` subtraction. Index accesses into the `xlen`-sized buffer panic
(`crash`) exactly where the Rust does, respecting the `||` short-circuit at
line 310. -/
def readBlockExtra (file : List Nat) (p1 xlen : Nat) : RBResult :=
  if xlen = 0 then RBResult.crash
  else if fileByte file (p1 + 0) ≠ 66 then RBResult.err
  else if xlen < 2 then RBResult.crash
  else if fileByte file (p1 + 1) ≠ 67 then RBResult.err
  else if xlen < 4 then RBResult.crash
  else if Nat.lor (fileByte file (p1 + 2)) ((fileByte file (p1 + 3)) <<< 8) ≠ 2 then
    RBResult.err
  else if xlen < 6 then RBResult.crash
  else
    let bsize : Nat := Nat.lor (fileByte file (p1 + 4)) ((fileByte file (p1 + 5)) <<< 8)
    if bsize < xlen then RBResult.crash
    else if bsize - xlen < 19 then RBResult.crash
    else readBlockFooter file (p1 + xlen) (bsize - xlen - 19) (bsize + 1)

/-- Model of `read_block` (src/lib.rs lines 289-345): read and validate the
fixed 12-byte header, read the `XLEN` extra-field bytes, then hand over to the
extra-field and footer steps. -/
def readBlock (file : List Nat) (p0 : Nat) : RBResult :=
  if file.length < p0 + 12 then RBResult.err
  else if fileByte file (p0 + 0) = 31 ∧ fileByte file (p0 + 1) = 139 ∧
      fileByte file (p0 + 2) = 8 ∧ fileByte file (p0 + 3) = 4 then
    let xlen : Nat := Nat.lor (fileByte file (p0 + 10)) ((fileByte file (p0 + 11)) <<< 8)
    if ¬ readExactOk file (p0 + 12) xlen then RBResult.err
    else readBlockExtra file (p0 + 12) xlen
  else RBResult.err

/-- The indexing loop of `BgzfReader::new` (src/lib.rs lines 75-89). A parse
error or the terminal block ends indexing (`some` of the accumulated state); a
panic inside `read_block` is `none`. The `fuel` argument only bounds the
recursion: each iteration advances the file position by `block_size ≥ 1` and
the loop stops once the position passes the end of the file, so the fuel
`file.length + 1` passed by `bgzfNew` is never exhausted. -/
def buildLoop (file : List Nat) :
    Nat → List (Nat × BgzfBlock) → Nat → Nat → Option (List (Nat × BgzfBlock) × Nat)
  | 0, _, _, _ => none
  | fuel + 1, tree, inputOff, filePos =>
    match readBlock file filePos with
    | RBResult.crash => none
    | RBResult.err => some (tree, inputOff)
    | RBResult.ok none => some (tree, inputOff)
    | RBResult.ok (some block) =>
      buildLoop file fuel (tree ++ [(inputOff, block)])
        (inputOff + block.input_length) (filePos + block.block_size)

/-- Model of `BgzfReader::new` (src/lib.rs lines 70-99). `none` models a path
where `File::open` fails (the only `?` in `new`); any `read_block` failure
merely breaks the indexing loop. -/
def bgzfNew (fileOpt : Option (List Nat)) : NewResult :=
  match fileOpt with
  | none => NewResult.err
  | some file =>
    match buildLoop file (file.length + 1) [] 0 0 with
    | none => NewResult.crash
    | some (tree, inputOff) =>
      NewResult.ok ⟨file, tree, inputOff, 0, 0, none⟩

/-- Model of `BgzfReader::seek` (src/lib.rs lines 113-115). -/
def bgzfSeek (r : BgzfReader) (p : Nat) : BgzfReader := { r with pos := p }

/-- Model of `BgzfReader::total_uncompressed_length` (src/lib.rs 118-120). -/
def total_uncompressed_length (r : BgzfReader) : Nat := r.input_length

/-- `BTreeMap::contains_key` on the association-list index. -/
def containsKey (t : List (Nat × BgzfBlock)) (k : Nat) : Bool :=
  t.any (fun e => e.1 == k)

/-- `self.block_tree.range(..pos).next_back()`: the entry with the greatest
key strictly below `k` (the list is in ascending key order). -/
def floorBelow (t : List (Nat × BgzfBlock)) (k : Nat) : Option (Nat × BgzfBlock) :=
  (t.filter (fun e => decide (e.1 < k))).getLast?

/-- `self.block_tree.range((Included lo, Excluded hi))` on the sorted list. -/
def rangeCo (t : List (Nat × BgzfBlock)) (lo hi : Nat) : List (Nat × BgzfBlock) :=
  t.filter (fun e => decide (lo ≤ e.1) && decide (e.1 < hi))

/-- Reinterpretation of the low 32 bits of a natural as an `i32`
(the source's `as i32` cast). -/
def i32ofU (n : Nat) : Int :=
  if n % 4294967296 < 2147483648 then ((n % 4294967296 : Nat) : Int)
  else ((n % 4294967296 : Nat) : Int) - 4294967296

/-- Checked `i32` addition: Rust's `+=` panics (debug) on overflow. -/
def i32add (a b : Int) : Option Int :=
  if -2147483648 ≤ a + b ∧ a + b < 2147483648 then some (a + b) else none

/-- Overwrite `b` starting at `off` with `src`
(the effect of `b[off..].copy_from_slice(src)` once its length check passed). -/
def listCopyInto (b : List Nat) (off : Nat) (src : List Nat) : List Nat :=
  b.take off ++ src ++ b.drop (off + src.length)

/-- The `vec![0u8; input_length]` output buffer after the decompressor wrote
`out`: its length is always exactly `input_length`, bytes beyond what was
written stay zero. -/
def uncompressedBuf (blk : BgzfBlock) (out : List Nat) : List Nat :=
  out.take blk.input_length ++ List.replicate (blk.input_length - out.length) 0

/-- Decompressor oracle: compressed bytes and output-buffer size to reported
byte count and written bytes, or `none` for a decompression error. -/
abbrev DecompFn := List Nat → Nat → Option (Nat × List Nat)

/-- The intra-block copy window of src/lib.rs lines 266-277: skip
`pos - key` bytes when `pos` is inside the block, then clamp to the remaining
requested length. `none` is the panic of the checked `u32` subtraction
`copy_length -= copy_skip as u32`. -/
def blockWindow (blk : BgzfBlock) (key pos len : Nat) : Option (Nat × Nat) :=
  if key < pos then
    if blk.input_length < (pos - key) % 4294967296 then none
    else some (pos - key,
      min (blk.input_length - (pos - key) % 4294967296) (len % 4294967296))
  else some (0, min blk.input_length (len % 4294967296))

/-- The per-block loop of `read` (src/lib.rs lines 242-285), iterating over the
resolved entries with the running buffer, offset, remaining length, copied
count, position and cache. All numeric steps follow the source, including the
cache replacement happening only after the decompression-integrity check. -/
def readLoop (decomp : DecompFn) (r0 : BgzfReader) :
    List (Nat × BgzfBlock) → List Nat → Nat → Nat → Int → Nat → Option Cache → ReadResult
  | [], b, _, _, cb, pos, cache =>
    ReadResult.ok cb { r0 with pos := pos, cache := cache } b
  | (key, block) :: rest, b, off, len, cb, pos, cache =>
    if ¬ readExactOk r0.bgzf_file block.data_offset block.data_length then
      ReadResult.err "io error" { r0 with pos := pos, cache := cache } b
    else
      let compressed := (r0.bgzf_file.drop block.data_offset).take block.data_length
      match decomp compressed block.input_length with
      | none => ReadResult.err "decompress error" { r0 with pos := pos, cache := cache } b
      | some (n, out) =>
        if n = 0 ∨ n ≠ block.input_length then
          ReadResult.err "Did not fully de-compress" { r0 with pos := pos, cache := cache } b
        else
          let uncompressed := uncompressedBuf block out
          match blockWindow block key pos len with
          | none => ReadResult.crash
          | some (copy_start, copy_length) =>
            if uncompressed.length < copy_start + copy_length then ReadResult.crash
            else if b.length < off then ReadResult.crash
            else if copy_length ≠ b.length - off then ReadResult.crash
            else
              match i32add cb (i32ofU copy_length) with
              | none => ReadResult.crash
              | some cb2 =>
                readLoop decomp r0 rest
                  (listCopyInto b off ((uncompressed.drop copy_start).take copy_length))
                  (off + copy_length) (len - copy_length) cb2
                  (pos + copy_length) (some ⟨key, uncompressed⟩)

/-- Index resolution of `read` (src/lib.rs lines 224-240): the floor block when
`pos` is not an exact key (its absence is the `unwrap` panic, `none`), then all
entries with key in `[pos, pos + len)`. -/
def resolveEntries (t : List (Nat × BgzfBlock)) (pos len : Nat) :
    Option (List (Nat × BgzfBlock)) :=
  if containsKey t pos then some (rangeCo t pos (pos + len))
  else
    match floorBelow t pos with
    | none => none
    | some kv => some (kv :: rangeCo t pos (pos + len))

/-- Index resolution followed by the per-block loop. -/
def resolveAndLoop (decomp : DecompFn) (r0 : BgzfReader) (b : List Nat)
    (off len : Nat) (cb : Int) (pos : Nat) (cache : Option Cache) : ReadResult :=
  match resolveEntries r0.block_tree pos len with
  | none => ReadResult.crash
  | some es => readLoop decomp r0 es b off len cb pos cache

/-- The cache fast path of `read` (src/lib.rs lines 188-212) followed by index
resolution: on a populated cache with `pos ≥ cache.pos`, the available-bytes
computation is a checked `usize` subtraction (`crash` when `pos` is strictly
past the cache end); a positive overlap is copied through `copy_from_slice`
into `b[off..]` (`crash` unless the window exactly fills the remaining
destination tail); otherwise the call falls through to index resolution. -/
def cacheStep (decomp : DecompFn) (r : BgzfReader) (b : List Nat)
    (off len : Nat) : ReadResult :=
  match r.cache with
    | none => resolveAndLoop decomp r b off len 0 r.pos none
    | some c =>
      if c.pos ≤ r.pos then
        if c.pos + c.uncompressed_data.length < r.pos then ReadResult.crash
        else
          let avail := c.pos + c.uncompressed_data.length - r.pos
          if 0 < avail then
            let copy_start := r.pos - c.pos
            let copy_length := min avail len
            if copy_length ≠ b.length - off then ReadResult.crash
            else
              match i32add 0 (i32ofU copy_length) with
              | none => ReadResult.crash
              | some cb =>
                let b2 := listCopyInto b off
                  ((c.uncompressed_data.drop copy_start).take copy_length)
                let len2 := len - copy_length
                if len2 = 0 then ReadResult.ok cb { r with pos := r.pos + copy_length } b2
                else resolveAndLoop decomp r b2 (off + copy_length) len2 cb
                  (r.pos + copy_length) (some c)
          else resolveAndLoop decomp r b off len 0 r.pos (some c)
      else resolveAndLoop decomp r b off len 0 r.pos (some c)

/-- Model of `BgzfReader::read` (src/lib.rs lines 165-286): the four
preliminary checks in source order (the bounds check computes `b.len() - off`
with checked subtraction, hence the `crash` when `off > b.len()`), then the
cache fast path and the per-block loop. -/
def bgzfRead (decomp : DecompFn) (r : BgzfReader) (b : List Nat)
    (off len : Nat) : ReadResult :=
  if b.length = 0 then ReadResult.err "Buffer size needs to be greater than 0" r b
  else if b.length < off then ReadResult.crash
  else if b.length - off < len then ReadResult.err "Index out of bound exception" r b
  else if len = 0 then ReadResult.ok 0 r b
  else if r.input_length ≤ r.pos then ReadResult.ok (-1) r b
  else cacheStep decomp r b off len

/-- Sequential reads, one per requested length, each into a fresh zero buffer
of exactly that length; `some` iff every call returns `Ok` with exactly the
requested count, collecting the concatenated bytes and the final state. -/
def seqReads (decomp : DecompFn) : BgzfReader → List Nat → Option (List Nat × BgzfReader)
  | r, [] => some ([], r)
  | r, n :: rest =>
    match bgzfRead decomp r (List.replicate n 0) 0 n with
    | ReadResult.ok cb r2 b2 =>
      if cb = (n : Int) then
        match seqReads decomp r2 rest with
        | some (acc, rf) => some (b2 ++ acc, rf)
        | none => none
      else none
    | _ => none

/-- Sum of the `uncompressed_length`s of the indexed blocks. -/
def sumLens : List (Nat × BgzfBlock) → Nat
  | [] => 0
  | (_, b) :: rest => b.input_length + sumLens rest

/-- The index invariant relative to a running uncompressed offset `o`: each key
equals the cumulative sum of the preceding blocks' lengths (starting at `o`)
and every indexed block has a nonzero uncompressed length. -/
def indexWF : Nat → List (Nat × BgzfBlock) → Bool
  | _, [] => true
  | o, (k, b) :: rest => k == o && b.input_length != 0 && indexWF (o + b.input_length) rest

/-- A read outcome preserves the block index and total length of `r`
(panics excepted, where no state is observable). -/
def readPreserves (r : BgzfReader) : ReadResult → Prop
  | ReadResult.ok _ r2 _ => r2.block_tree = r.block_tree ∧ r2.input_length = r.input_length
  | ReadResult.err _ r2 _ => r2.block_tree = r.block_tree ∧ r2.input_length = r.input_length
  | ReadResult.crash => True

/-- Decompressor oracle that fills the whole output buffer with byte 65 and
reports the full size: a well-behaved decompressor. -/
def decomp0 : DecompFn := fun _ sz => some (sz, List.replicate sz 65)

/-- Decompressor oracle that reports 0 bytes: a truncated/corrupt block. -/
def decompBad : DecompFn := fun _ _ => some (0, [])

/-- A valid one-block BGZF file: 12-byte header (`XLEN = 6`), `BC` extra field
with `BSIZE = 26`, one payload byte, CRC32, `ISIZE = 2`. The block declares
2 uncompressed bytes; the file ends after the block. -/
def file1 : List Nat :=
  [31, 139, 8, 4, 0, 0, 0, 0, 0, 0, 6, 0,
   66, 67, 2, 0, 26, 0,
   88,
   0, 0, 0, 0,
   2, 0, 0, 0]

/-- The descriptor of `file1`'s single block. -/
def blk1 : BgzfBlock := ⟨18, 1, 2, 27⟩

/-- The reader produced by `bgzfNew` on `file1`. -/
def reader1 : BgzfReader := ⟨file1, [(0, blk1)], 2, 0, 0, none⟩

/-- A valid two-block BGZF file: two consecutive blocks, each declaring 1
uncompressed byte (`ISIZE = 1`). -/
def file2 : List Nat :=
  [31, 139, 8, 4, 0, 0, 0, 0, 0, 0, 6, 0,
   66, 67, 2, 0, 26, 0,
   88,
   0, 0, 0, 0,
   1, 0, 0, 0,
   31, 139, 8, 4, 0, 0, 0, 0, 0, 0, 6, 0,
   66, 67, 2, 0, 26, 0,
   88,
   0, 0, 0, 0,
   1, 0, 0, 0]

/-- The reader produced by `bgzfNew` on `file2`: two indexed blocks at
uncompressed offsets 0 and 1, total uncompressed length 2. -/
def reader2 : BgzfReader :=
  ⟨file2, [(0, ⟨18, 1, 1, 27⟩), (1, ⟨45, 1, 1, 27⟩)], 2, 0, 0, none⟩


theorem sumLens_append (t : List (Nat × BgzfBlock)) (k : Nat) (blk : BgzfBlock) :
    sumLens (t ++ [(k, blk)]) = sumLens t + blk.input_length := by
  induction t with
  | nil => simp [sumLens]
  | cons e rest ih =>
    cases e with
    | mk a b => simp [sumLens, ih]; omega

theorem indexWF_append (t : List (Nat × BgzfBlock)) (o : Nat) (blk : BgzfBlock)
    (hwf : indexWF o t = true) (hpos : blk.input_length ≠ 0) :
    indexWF o (t ++ [(o + sumLens t, blk)]) = true := by
  induction t generalizing o with
  | nil =>
    simp [indexWF, sumLens, hpos]
  | cons e rest ih =>
    cases e with
    | mk k b =>
      simp only [indexWF, Bool.and_eq_true, beq_iff_eq, bne_iff_ne, ne_eq] at hwf
      obtain ⟨⟨hk, hb⟩, hrest⟩ := hwf
      have := ih (o + b.input_length) hrest
      simp only [List.cons_append, indexWF, Bool.and_eq_true, beq_iff_eq, bne_iff_ne, ne_eq,
        sumLens]
      refine ⟨⟨hk, hb⟩, ?_⟩
      have harr : o + (b.input_length + sumLens rest) = o + b.input_length + sumLens rest := by
        omega
      rw [harr]
      exact this

theorem readBlockFooter_ok_some (file : List Nat) (d_off d_len bs : Nat) (blk : BgzfBlock)
    (h : readBlockFooter file d_off d_len bs = RBResult.ok (some blk)) :
    blk.input_length ≠ 0 := by
  simp only [readBlockFooter] at h
  split_ifs at h with h1 h2 <;> cases h
  exact h2

theorem readBlockExtra_ok_some (file : List Nat) (p1 xlen : Nat) (blk : BgzfBlock)
    (h : readBlockExtra file p1 xlen = RBResult.ok (some blk)) :
    blk.input_length ≠ 0 := by
  simp only [readBlockExtra] at h
  split_ifs at h
  all_goals first
    | cases h
    | exact readBlockFooter_ok_some _ _ _ _ _ h

theorem readBlock_ok_some (file : List Nat) (p : Nat) (blk : BgzfBlock)
    (h : readBlock file p = RBResult.ok (some blk)) : blk.input_length ≠ 0 := by
  simp only [readBlock] at h
  split_ifs at h
  all_goals first
    | cases h
    | exact readBlockExtra_ok_some _ _ _ _ h

theorem buildLoop_wf (file : List Nat) :
    ∀ (fuel : Nat) (t : List (Nat × BgzfBlock)) (o p : Nat)
      (t2 : List (Nat × BgzfBlock)) (o2 : Nat),
    indexWF 0 t = true → o = sumLens t →
    buildLoop file fuel t o p = some (t2, o2) →
    indexWF 0 t2 = true ∧ o2 = sumLens t2 := by
  intro fuel
  induction fuel with
  | zero => intro t o p t2 o2 _ _ h; simp [buildLoop] at h
  | succ n ih =>
    intro t o p t2 o2 hwf ho h
    unfold buildLoop at h
    cases hrb : readBlock file p with
    | crash => rw [hrb] at h; simp at h
    | err =>
      rw [hrb] at h
      simp at h
      obtain ⟨h1, h2⟩ := h
      subst h1; subst h2
      exact ⟨hwf, ho⟩
    | ok ob =>
      cases ob with
      | none =>
        rw [hrb] at h
        simp at h
        obtain ⟨h1, h2⟩ := h
        subst h1; subst h2
        exact ⟨hwf, ho⟩
      | some blk =>
        rw [hrb] at h
        have hpos := readBlock_ok_some file p blk hrb
        have hwf2 : indexWF 0 (t ++ [(o, blk)]) = true := by
          have := indexWF_append t 0 blk hwf hpos
          simpa [ho] using this
        have ho2 : o + blk.input_length = sumLens (t ++ [(o, blk)]) := by
          rw [sumLens_append]; omega
        exact ih (t ++ [(o, blk)]) (o + blk.input_length) (p + blk.block_size) t2 o2 hwf2 ho2 h

theorem bgzfNew_ok (file : List Nat) (r : BgzfReader)
    (h : bgzfNew (some file) = NewResult.ok r) :
    r.bgzf_file = file ∧ r.pos = 0 ∧ r.cache = none ∧ r.current_read_position = 0 ∧
    indexWF 0 r.block_tree = true ∧ r.input_length = sumLens r.block_tree := by
  simp only [bgzfNew] at h
  cases hb : buildLoop file (file.length + 1) [] 0 0 with
  | none => rw [hb] at h; simp at h
  | some res =>
    rw [hb] at h
    cases res with
    | mk t o =>
      simp at h
      have hwf := buildLoop_wf file (file.length + 1) [] 0 0 t o (by simp [indexWF])
        (by simp [sumLens]) hb
      subst h
      exact ⟨rfl, rfl, rfl, rfl, hwf.1, hwf.2⟩

theorem indexWF_cons (o k : Nat) (b : BgzfBlock) (rest : List (Nat × BgzfBlock)) :
    indexWF o ((k, b) :: rest) = true ↔
      k = o ∧ b.input_length ≠ 0 ∧ indexWF (o + b.input_length) rest = true := by
  simp [indexWF, and_assoc]

theorem indexWF_mem (t : List (Nat × BgzfBlock)) :
    ∀ o, indexWF o t = true → ∀ e ∈ t, e.2.input_length ≠ 0 ∧ o ≤ e.1 := by
  induction t with
  | nil => intro o _ e he; cases he
  | cons hd rest ih =>
    intro o hwf e he
    cases hd with
    | mk k b =>
      rw [indexWF_cons] at hwf
      obtain ⟨hk, hb, hrest⟩ := hwf
      cases he with
      | head => exact ⟨hb, le_of_eq hk.symm⟩
      | tail _ htl =>
        have := ih (o + b.input_length) hrest e htl
        exact ⟨this.1, by omega⟩

theorem indexWF_chain (t : List (Nat × BgzfBlock)) :
    ∀ o, indexWF o t = true → List.Chain' (· < ·) (t.map Prod.fst) := by
  induction t with
  | nil => intro o _; simp
  | cons hd rest ih =>
    intro o hwf
    cases hd with
    | mk k b =>
      rw [indexWF_cons] at hwf
      obtain ⟨hk, hb, hrest⟩ := hwf
      cases rest with
      | nil => simp
      | cons hd2 rs =>
        cases hd2 with
        | mk k2 b2 =>
          have h2 := (indexWF_cons _ _ _ _).mp hrest
          have hlt : k < k2 := by
            have hb0 : 0 < b.input_length := Nat.pos_of_ne_zero hb
            omega
          simpa using List.chain'_cons.mpr ⟨hlt, by simpa using ih (o + b.input_length) hrest⟩

theorem indexWF_floor (t : List (Nat × BgzfBlock)) (pos : Nat)
    (hwf : indexWF 0 t = true) (hlt : pos < sumLens t)
    (hnk : containsKey t pos = false) : (floorBelow t pos).isSome = true := by
  cases t with
  | nil => simp [sumLens] at hlt
  | cons hd rest =>
    cases hd with
    | mk k b =>
      have hk : k = 0 := ((indexWF_cons _ _ _ _).mp hwf).1
      have hpos : 0 < pos := by
        rcases Nat.eq_zero_or_pos pos with h0 | h0
        · exfalso
          have : containsKey ((k, b) :: rest) pos = true := by
            simp [containsKey, List.any_cons, hk, h0]
          rw [this] at hnk; cases hnk
        · exact h0
      have hmem : (k, b) ∈ (((k, b) :: rest).filter (fun e => decide (e.1 < pos))) := by
        apply List.mem_filter.mpr
        exact ⟨List.mem_cons_self _ _, by simp [hk, hpos]⟩
      rw [floorBelow, List.getLast?_isSome]
      exact List.ne_nil_of_mem hmem

theorem blockWindow_le (blk : BgzfBlock) (k pos len cs w : Nat)
    (h : blockWindow blk k pos len = some (cs, w)) : w ≤ len := by
  unfold blockWindow at h
  split_ifs at h <;> cases h <;>
    exact le_trans (Nat.min_le_right _ _) (Nat.mod_le _ _)

theorem readLoop_tree (decomp : DecompFn) (r0 : BgzfReader) :
    ∀ (entries : List (Nat × BgzfBlock)) (b : List Nat) (off len : Nat) (cb : Int)
      (pos : Nat) (cache : Option Cache),
      readPreserves r0 (readLoop decomp r0 entries b off len cb pos cache) := by
  intro entries
  induction entries with
  | nil => intro b off len cb pos cache; exact ⟨rfl, rfl⟩
  | cons e rest ih =>
    intro b off len cb pos cache
    cases e with
    | mk k blk =>
      simp only [readLoop]
      repeat' split
      all_goals first
        | exact ⟨rfl, rfl⟩
        | exact trivial
        | apply ih

theorem readLoop_cons_ok (decomp : DecompFn) (r0 : BgzfReader) (k : Nat) (blk : BgzfBlock)
    (rest : List (Nat × BgzfBlock)) (b : List Nat) (off len : Nat) (cb : Int)
    (pos : Nat) (cache : Option Cache) (cb2 : Int) (r2 : BgzfReader) (b2 : List Nat)
    (h : readLoop decomp r0 ((k, blk) :: rest) b off len cb pos cache
      = ReadResult.ok cb2 r2 b2) :
    off ≤ b.length ∧ b.length - off ≤ len := by
  simp only [readLoop] at h
  by_cases hio : (¬ readExactOk r0.bgzf_file blk.data_offset blk.data_length = true)
  · rw [if_pos hio] at h; cases h
  · rw [if_neg hio] at h
    rcases hdec : decomp ((r0.bgzf_file.drop blk.data_offset).take blk.data_length)
        blk.input_length with _ | ⟨n, out⟩
    · simp only [hdec] at h; cases h
    · simp only [hdec] at h
      by_cases hn : (n = 0 ∨ n ≠ blk.input_length)
      · rw [if_pos hn] at h; cases h
      · rw [if_neg hn] at h
        rcases hwin : blockWindow blk k pos len with _ | ⟨cs, w⟩
        · simp only [hwin] at h; cases h
        · simp only [hwin] at h
          by_cases hsl : ((uncompressedBuf blk out).length < cs + w)
          · rw [if_pos hsl] at h; cases h
          · rw [if_neg hsl] at h
            by_cases hoff : (b.length < off)
            · rw [if_pos hoff] at h; cases h
            · rw [if_neg hoff] at h
              by_cases hw : (w ≠ b.length - off)
              · rw [if_pos hw] at h; cases h
              · rw [if_neg hw] at h
                push_neg at hw
                have hwle := blockWindow_le blk k pos len cs w hwin
                constructor
                · omega
                · omega

theorem i32ofU_bounds (n : Nat) : -2147483648 ≤ i32ofU n ∧ i32ofU n < 2147483648 := by
  unfold i32ofU
  have hm : n % 4294967296 < 4294967296 := Nat.mod_lt _ (by norm_num)
  split_ifs with h
  · constructor
    · have : (0 : Int) ≤ ((n % 4294967296 : Nat) : Int) := Int.natCast_nonneg _
      omega
    · exact_mod_cast h
  · push_neg at h
    constructor
    · have : (2147483648 : Int) ≤ ((n % 4294967296 : Nat) : Int) := by exact_mod_cast h
      omega
    · have : ((n % 4294967296 : Nat) : Int) < 4294967296 := by exact_mod_cast hm
      omega

theorem i32add_zero (n : Nat) : i32add 0 (i32ofU n) = some (i32ofU n) := by
  have h := i32ofU_bounds n
  unfold i32add
  rw [if_pos]
  · rw [zero_add]
  · rw [zero_add]
    exact h

theorem i32ofU_small (n : Nat) (h : n < 2147483648) : i32ofU n = (n : Int) := by
  unfold i32ofU
  rw [Nat.mod_eq_of_lt (by omega)]
  rw [if_pos h]

theorem resolveEntries_ne_nil (t : List (Nat × BgzfBlock)) (pos len : Nat)
    (es : List (Nat × BgzfBlock)) (h : resolveEntries t pos len = some es)
    (hlen : 0 < len) : es ≠ [] := by
  unfold resolveEntries at h
  split_ifs at h with hck
  · obtain rfl := Option.some.inj h
    obtain ⟨e, hmem, he⟩ := List.any_eq_true.mp hck
    have hekey : e.1 = pos := by simpa using he
    have : e ∈ rangeCo t pos (pos + len) := by
      apply List.mem_filter.mpr
      refine ⟨hmem, ?_⟩
      simp [hekey, hlen]
    exact List.ne_nil_of_mem this
  · cases hfl : floorBelow t pos with
    | none => rw [hfl] at h; cases h
    | some kv =>
      rw [hfl] at h
      obtain rfl := Option.some.inj h
      simp

theorem resolveAndLoop_ok_tail (decomp : DecompFn) (r0 : BgzfReader) (b : List Nat)
    (off len : Nat) (cb : Int) (pos : Nat) (cache : Option Cache)
    (cb2 : Int) (r2 : BgzfReader) (b2 : List Nat)
    (h : resolveAndLoop decomp r0 b off len cb pos cache = ReadResult.ok cb2 r2 b2)
    (hlen : 0 < len) :
    off ≤ b.length ∧ b.length - off ≤ len := by
  unfold resolveAndLoop at h
  cases hre : resolveEntries r0.block_tree pos len with
  | none => rw [hre] at h; cases h
  | some es =>
    rw [hre] at h
    cases es with
    | nil => exact absurd rfl (resolveEntries_ne_nil _ _ _ _ hre hlen)
    | cons e rest =>
      cases e with
      | mk k blk => exact readLoop_cons_ok _ _ _ _ _ _ _ _ _ _ _ _ _ _ h

theorem bgzfRead_checks (decomp : DecompFn) (r : BgzfReader) (b : List Nat) (off len : Nat)
    (hb : ¬ b.length = 0) (hoff : ¬ b.length < off) (hlen : ¬ b.length - off < len)
    (h0 : ¬ len = 0) (hpos : ¬ r.input_length ≤ r.pos) :
    bgzfRead decomp r b off len = cacheStep decomp r b off len := by
  unfold bgzfRead
  rw [if_neg hb, if_neg hoff, if_neg hlen, if_neg h0, if_neg hpos]

theorem cacheStep_none (decomp : DecompFn) (r : BgzfReader) (b : List Nat) (off len : Nat)
    (hc : r.cache = none) :
    cacheStep decomp r b off len = resolveAndLoop decomp r b off len 0 r.pos none := by
  simp only [cacheStep, hc]

theorem cacheStep_low (decomp : DecompFn) (r : BgzfReader) (b : List Nat) (off len : Nat)
    (c : Cache) (hc : r.cache = some c) (hlow : r.pos < c.pos) :
    cacheStep decomp r b off len = resolveAndLoop decomp r b off len 0 r.pos (some c) := by
  simp only [cacheStep, hc]
  rw [if_neg (by omega)]

theorem cacheStep_pastEnd (decomp : DecompFn) (r : BgzfReader) (b : List Nat) (off len : Nat)
    (c : Cache) (hc : r.cache = some c) (hle : c.pos ≤ r.pos)
    (hpast : c.pos + c.uncompressed_data.length < r.pos) :
    cacheStep decomp r b off len = ReadResult.crash := by
  simp only [cacheStep, hc]
  rw [if_pos hle, if_pos hpast]

theorem cacheStep_atEnd (decomp : DecompFn) (r : BgzfReader) (b : List Nat) (off len : Nat)
    (c : Cache) (hc : r.cache = some c) (hle : c.pos ≤ r.pos)
    (hend : r.pos = c.pos + c.uncompressed_data.length) :
    cacheStep decomp r b off len = resolveAndLoop decomp r b off len 0 r.pos (some c) := by
  simp only [cacheStep, hc]
  rw [if_pos hle, if_neg (by omega), if_neg (by omega)]

theorem cacheStep_hit_crash (decomp : DecompFn) (r : BgzfReader) (b : List Nat) (off len : Nat)
    (c : Cache) (hc : r.cache = some c) (hle : c.pos ≤ r.pos)
    (hin : r.pos < c.pos + c.uncompressed_data.length)
    (hk : min (c.pos + c.uncompressed_data.length - r.pos) len ≠ b.length - off) :
    cacheStep decomp r b off len = ReadResult.crash := by
  simp only [cacheStep, hc]
  rw [if_pos hle, if_neg (by omega), if_pos (by omega), if_pos hk]

theorem cacheStep_hit_copy (decomp : DecompFn) (r : BgzfReader) (b : List Nat) (off len : Nat)
    (c : Cache) (hc : r.cache = some c) (hle : c.pos ≤ r.pos)
    (hin : r.pos < c.pos + c.uncompressed_data.length)
    (hk : min (c.pos + c.uncompressed_data.length - r.pos) len = b.length - off)
    (hlenle : len ≤ b.length - off) :
    cacheStep decomp r b off len
      = ReadResult.ok (i32ofU len) { r with pos := r.pos + len }
          (listCopyInto b off ((c.uncompressed_data.drop (r.pos - c.pos)).take len)) := by
  have hkle : min (c.pos + c.uncompressed_data.length - r.pos) len ≤ len :=
    Nat.min_le_right _ _
  have hkeq : min (c.pos + c.uncompressed_data.length - r.pos) len = len := by omega
  simp only [cacheStep, hc, hkeq]
  rw [if_pos hle, if_neg (by omega), if_pos (by omega), if_neg (by omega), i32add_zero]
  simp [Nat.sub_self]

/-- C4, counterexample to the claim as stated: on an empty buffer the
preliminary buffer check fires before the end-of-stream check, so a reader
positioned at/past end of stream returns a bounds `Err`, not the `-1`
sentinel, contradicting "for every buffer ... returns the end-of-stream
sentinel ... and never returns an error". -/
theorem spec_c4_counterexample :
    bgzfRead decomp0 ⟨[], [], 0, 0, 5, none⟩ [] 0 1
      = ReadResult.err "Buffer size needs to be greater than 0" ⟨[], [], 0, 0, 5, none⟩ []
      ∧ (5 : Nat) ≥ (0 : Nat) := by
  exact ⟨rfl, by omega⟩

/-- C4 (amended): for every reader, nonempty buffer, offset and nonzero
length that pass the buffer bounds checks (`off ≤ b.len()` and
`off + len ≤ b.len()`), if `current_position ≥ total_uncompressed_length`
then `read` returns the end-of-stream sentinel `-1` with zero bytes copied
and the buffer, cursor and cache unchanged — never an error. -/
theorem spec_c4 (decomp : DecompFn) (r : BgzfReader) (b : List Nat) (off len : Nat)
    (hb : b.length ≠ 0) (hoff : off ≤ b.length) (hlen : off + len ≤ b.length)
    (h0 : 0 < len) (heos : r.input_length ≤ r.pos) :
    bgzfRead decomp r b off len = ReadResult.ok (-1) r b := by
  unfold bgzfRead
  rw [if_neg hb, if_neg (by omega), if_neg (by omega), if_neg (by omega), if_pos heos]

/-- C4 witness: a concrete reader past end of stream. -/
theorem spec_c4_witness :
    bgzfRead decomp0 ⟨[], [], 0, 0, 5, none⟩ [0] 0 1
      = ReadResult.ok (-1) ⟨[], [], 0, 0, 5, none⟩ [0] :=
  spec_c4 decomp0 ⟨[], [], 0, 0, 5, none⟩ [0] 0 1 (by decide) (by decide) (by decide)
    (by decide) (by decide)

/-- C5, counterexample to the claim as stated: with `off = 2 > b.len() = 1`
(so `off + len > b.len()`), the bounds check's `b.len() - off` underflows and
the call panics instead of returning an `Err` value. -/
theorem spec_c5_counterexample :
    bgzfRead decomp0 reader1 [0] 2 1 = ReadResult.crash ∧ 2 + 1 > 1 := by
  exact ⟨rfl, by omega⟩

/-- C5 (amended): for every buffer `b`, offset `off ≤ b.len()` and length with
`off + len > b.len()`, `read` returns a bounds error (an `Err` value), copies
no bytes and leaves the position and cache unchanged; when `off > b.len()` the
call panics instead (checked `usize` underflow in the bounds check). -/
theorem spec_c5 (decomp : DecompFn) (r : BgzfReader) (b : List Nat) (off len : Nat)
    (hoff : off ≤ b.length) (hover : b.length < off + len) :
    bgzfRead decomp r b off len
        = ReadResult.err "Buffer size needs to be greater than 0" r b
      ∨ bgzfRead decomp r b off len
        = ReadResult.err "Index out of bound exception" r b := by
  unfold bgzfRead
  by_cases hb : b.length = 0
  · rw [if_pos hb]; exact Or.inl rfl
  · rw [if_neg hb, if_neg (by omega), if_pos (by omega)]; exact Or.inr rfl

/-- C5 witness: a concrete over-long request. -/
theorem spec_c5_witness :
    bgzfRead decomp0 reader1 [0] 0 2
        = ReadResult.err "Buffer size needs to be greater than 0" reader1 [0]
      ∨ bgzfRead decomp0 reader1 [0] 0 2
        = ReadResult.err "Index out of bound exception" reader1 [0] :=
  spec_c5 decomp0 reader1 [0] 0 2 (by decide) (by decide)

/-- C6, counterexample to the claim as stated: a zero-length request on an
empty buffer does not return `0` — the empty-buffer check fires first and the
call returns a bounds `Err`. -/
theorem spec_c6_counterexample :
    bgzfRead decomp0 reader1 [] 0 0
      = ReadResult.err "Buffer size needs to be greater than 0" reader1 [] := rfl

/-- C6 (amended): for every reader, every nonempty buffer and every offset
`off ≤ b.len()`, a read call with requested length 0 returns 0 immediately,
leaving the buffer, the current position and the cache unchanged. -/
theorem spec_c6 (decomp : DecompFn) (r : BgzfReader) (b : List Nat) (off : Nat)
    (hb : b.length ≠ 0) (hoff : off ≤ b.length) :
    bgzfRead decomp r b off 0 = ReadResult.ok 0 r b := by
  unfold bgzfRead
  rw [if_neg hb, if_neg (by omega), if_neg (by omega), if_pos rfl]

/-- C6 witness: a concrete zero-length read. -/
theorem spec_c6_witness :
    bgzfRead decomp0 reader1 [0] 1 0 = ReadResult.ok 0 reader1 [0] :=
  spec_c6 decomp0 reader1 [0] 1 (by decide) (by decide)

theorem resolveAndLoop_tree (decomp : DecompFn) (r0 : BgzfReader) (b : List Nat)
    (off len : Nat) (cb : Int) (pos : Nat) (cache : Option Cache) :
    readPreserves r0 (resolveAndLoop decomp r0 b off len cb pos cache) := by
  unfold resolveAndLoop
  cases resolveEntries r0.block_tree pos len with
  | none => exact trivial
  | some es => exact readLoop_tree decomp r0 es b off len cb pos cache

theorem cacheStep_tree (decomp : DecompFn) (r : BgzfReader) (b : List Nat)
    (off len : Nat) : readPreserves r (cacheStep decomp r b off len) := by
  rcases hcc : r.cache with _ | c
  · rw [cacheStep_none decomp r b off len hcc]
    exact resolveAndLoop_tree decomp r b off len 0 r.pos none
  · simp only [cacheStep, hcc]
    repeat' split
    all_goals first
      | exact trivial
      | exact ⟨rfl, rfl⟩
      | apply resolveAndLoop_tree

theorem bgzfRead_tree (decomp : DecompFn) (r : BgzfReader) (b : List Nat)
    (off len : Nat) : readPreserves r (bgzfRead decomp r b off len) := by
  unfold bgzfRead
  split_ifs
  · exact ⟨rfl, rfl⟩
  · exact trivial
  · exact ⟨rfl, rfl⟩
  · exact ⟨rfl, rfl⟩
  · exact ⟨rfl, rfl⟩
  · exact cacheStep_tree decomp r b off len

/-- C2, counterexample to the claim as stated: a 12-zero-byte file opens fine
and the very first `read_block` at offset 0 fails (bad magic), yet construction
succeeds, returning a reader with an empty index — contradicting "construction
fails ... if parsing the very first block at file offset 0 fails". -/
theorem spec_c2_counterexample :
    readBlock (List.replicate 12 0) 0 = RBResult.err
    ∧ bgzfNew (some (List.replicate 12 0))
        = NewResult.ok ⟨List.replicate 12 0, [], 0, 0, 0, none⟩ := by
  exact ⟨rfl, rfl⟩

/-- C2 (amended): constructing a reader returns an error if and only if the
file cannot be opened; every `read_block` failure — including one on the very
first block at offset 0 — is swallowed and merely ends indexing, leaving
construction successful. -/
theorem spec_c2 (fopt : Option (List Nat)) :
    bgzfNew fopt = NewResult.err ↔ fopt = none := by
  cases fopt with
  | none => simp [bgzfNew]
  | some file =>
    constructor
    · intro h
      exfalso
      simp only [bgzfNew] at h
      cases hb : buildLoop file (file.length + 1) [] 0 0 with
      | none => rw [hb] at h; cases h
      | some res => rw [hb] at h; cases res with | mk t o => simp at h
    · intro h; cases h

/-- C2 witness: with no openable file, construction errors. -/
theorem spec_c2_witness : bgzfNew none = NewResult.err :=
  (spec_c2 none).mpr rfl

/-- C8: for every successfully constructed reader, the block index keys are
strictly increasing, each key equals the cumulative sum of the uncompressed
lengths of the preceding indexed blocks (the first key is 0 when any block is
indexed), every indexed block has `uncompressed_length > 0`, and the total
uncompressed length equals the sum of all indexed blocks' lengths; the index
and total are preserved by every seek and by every read outcome. -/
theorem spec_c8 (file : List Nat) (r : BgzfReader)
    (hnew : bgzfNew (some file) = NewResult.ok r) :
    indexWF 0 r.block_tree = true
    ∧ r.input_length = sumLens r.block_tree
    ∧ List.Chain' (fun a b => a < b) (r.block_tree.map Prod.fst)
    ∧ (∀ e ∈ r.block_tree, 0 < e.2.input_length)
    ∧ (∀ k blk rest, r.block_tree = (k, blk) :: rest → k = 0)
    ∧ (∀ p, (bgzfSeek r p).block_tree = r.block_tree
        ∧ (bgzfSeek r p).input_length = r.input_length)
    ∧ (∀ decomp b off len, readPreserves r (bgzfRead decomp r b off len)) := by
  obtain ⟨hf, hp, hc, hcrp, hwf, hlen⟩ := bgzfNew_ok file r hnew
  refine ⟨hwf, hlen, indexWF_chain _ 0 hwf, ?_, ?_, ?_, ?_⟩
  · intro e he
    exact Nat.pos_of_ne_zero (indexWF_mem _ 0 hwf e he).1
  · intro k blk rest htree
    rw [htree] at hwf
    exact ((indexWF_cons 0 k blk rest).mp hwf).1
  · intro p
    exact ⟨rfl, rfl⟩
  · intro decomp b off len
    exact bgzfRead_tree decomp r b off len

/-- C8 witness: the constructed invariant holds for the concrete one-block
reader. -/
theorem spec_c8_witness :
    indexWF 0 reader1.block_tree = true
    ∧ reader1.input_length = sumLens reader1.block_tree :=
  ⟨(spec_c8 file1 reader1 (by decide)).1, (spec_c8 file1 reader1 (by decide)).2.1⟩

/-- C9: for every read call on a constructed reader that reaches index
resolution (`current_position < total_uncompressed_length`) with
`current_position` not an exact index key, the index contains an entry with
key strictly below `current_position`, so the predecessor (floor) lookup
yields a block and the `unwrap` at src/lib.rs line 225 never panics. -/
theorem spec_c9 (file : List Nat) (r : BgzfReader) (pos : Nat)
    (hnew : bgzfNew (some file) = NewResult.ok r)
    (hpos : pos < r.input_length)
    (hnk : containsKey r.block_tree pos = false) :
    (floorBelow r.block_tree pos).isSome = true := by
  obtain ⟨hf, hp, hc, hcrp, hwf, hlen⟩ := bgzfNew_ok file r hnew
  rw [hlen] at hpos
  exact indexWF_floor r.block_tree pos hwf hpos hnk

/-- C9 witness: position 1 inside the single 2-byte block of `file1` is not a
key; the floor lookup finds the block at key 0. -/
theorem spec_c9_witness : (floorBelow reader1.block_tree 1).isSome = true :=
  spec_c9 file1 reader1 1 (by decide) (by decide) (by decide)

/-- C3, counterexample to the claim as stated: the cache holds one byte at
start offset 0 and the position is 2, strictly past the cache end 1 (and still
below the total length 3). The claim calls this a miss that "proceeds to
index resolution, without error or panic", but the available-bytes
computation `cache.pos + data.len() - pos` underflows and the call panics. -/
theorem spec_c3_counterexample :
    bgzfRead decomp0 ⟨[], [], 3, 0, 2, some ⟨0, [7]⟩⟩ [0] 0 1 = ReadResult.crash := rfl

/-- C3 (amended): for every read call that passes the preliminary checks and
has a populated cache: (a) if `current_position` lies inside
`[start_offset, start_offset + len(data))` the cache step computes the
clamped maximal suffix `k = min(available, requested)`; the copy succeeds
(returning `k = requested` bytes and advancing the position) only when `k`
exactly equals the remaining destination tail `b.len() - off` — otherwise
`copy_from_slice` panics; (b) if `current_position` is below the cache start
or exactly at the cache end the step is a miss that copies nothing and
proceeds to index resolution; (c) if `current_position` is strictly past the
cache end the available-bytes subtraction underflows and the call panics. -/
theorem spec_c3 (decomp : DecompFn) (r : BgzfReader) (b : List Nat) (off len : Nat)
    (c : Cache) (hb : b.length ≠ 0) (hoff : off ≤ b.length) (hlen : off + len ≤ b.length)
    (h0 : 0 < len) (hpos : r.pos < r.input_length) (hc : r.cache = some c) :
    (c.pos ≤ r.pos → r.pos < c.pos + c.uncompressed_data.length →
      (min (c.pos + c.uncompressed_data.length - r.pos) len = b.length - off →
        bgzfRead decomp r b off len
          = ReadResult.ok (i32ofU len) { r with pos := r.pos + len }
              (listCopyInto b off ((c.uncompressed_data.drop (r.pos - c.pos)).take len)))
      ∧ (min (c.pos + c.uncompressed_data.length - r.pos) len ≠ b.length - off →
        bgzfRead decomp r b off len = ReadResult.crash))
    ∧ (r.pos < c.pos →
        bgzfRead decomp r b off len = resolveAndLoop decomp r b off len 0 r.pos (some c))
    ∧ (r.pos = c.pos + c.uncompressed_data.length →
        bgzfRead decomp r b off len = resolveAndLoop decomp r b off len 0 r.pos (some c))
    ∧ (c.pos + c.uncompressed_data.length < r.pos →
        bgzfRead decomp r b off len = ReadResult.crash) := by
  have hread := bgzfRead_checks decomp r b off len hb (by omega) (by omega) (by omega)
    (by omega)
  refine ⟨fun hle hin => ⟨fun hk => ?_, fun hk => ?_⟩, fun hlow => ?_, fun hend => ?_,
    fun hpast => ?_⟩
  · rw [hread]
    exact cacheStep_hit_copy decomp r b off len c hc hle hin hk (by omega)
  · rw [hread]
    exact cacheStep_hit_crash decomp r b off len c hc hle hin hk
  · rw [hread]
    exact cacheStep_low decomp r b off len c hc hlow
  · rw [hread]
    exact cacheStep_atEnd decomp r b off len c hc (by omega) hend
  · rw [hread]
    exact cacheStep_pastEnd decomp r b off len c hc (by omega) hpast

/-- C3 witness: a concrete in-cache hit whose clamped length matches the
destination tail; the cache serves the byte and the position advances. -/
theorem spec_c3_witness :
    bgzfRead decomp0 ⟨[], [], 5, 0, 1, some ⟨0, [9, 9, 9]⟩⟩ [0] 0 1
      = ReadResult.ok (i32ofU 1) ⟨[], [], 5, 0, 2, some ⟨0, [9, 9, 9]⟩⟩ [9] :=
  ((spec_c3 decomp0 ⟨[], [], 5, 0, 1, some ⟨0, [9, 9, 9]⟩⟩ [0] 0 1 ⟨0, [9, 9, 9]⟩
    (by decide) (by decide) (by decide) (by decide) (by decide) rfl).1
    (by decide) (by decide)).1 (by decide)

/-- C7: during the per-block loop of `read`, for every resolved block whose
successful decompressor call reports 0 bytes or a count different from the
block's declared `uncompressed_length`, the call fails with the
decode-integrity error, with the destination buffer exactly as before the
block (no bytes from that block) and the cache not replaced; hence a block's
bytes reach the destination only when the reported count equals
`uncompressed_length` exactly. -/
theorem spec_c7 (decomp : DecompFn) (r0 : BgzfReader) (k : Nat) (blk : BgzfBlock)
    (rest : List (Nat × BgzfBlock)) (b : List Nat) (off len : Nat) (cb : Int)
    (pos : Nat) (cache : Option Cache) (n : Nat) (out : List Nat)
    (hio : readExactOk r0.bgzf_file blk.data_offset blk.data_length = true)
    (hdec : decomp ((r0.bgzf_file.drop blk.data_offset).take blk.data_length)
        blk.input_length = some (n, out))
    (hbad : n = 0 ∨ n ≠ blk.input_length) :
    readLoop decomp r0 ((k, blk) :: rest) b off len cb pos cache
      = ReadResult.err "Did not fully de-compress"
          { r0 with pos := pos, cache := cache } b := by
  simp only [readLoop, hdec]
  rw [if_neg (not_not_intro hio), if_pos hbad]

/-- C7 witness: a decompressor reporting 0 bytes on the concrete one-block
file makes the loop fail with the decode error, buffer and cache untouched. -/
theorem spec_c7_witness :
    readLoop decompBad reader1 [(0, blk1)] [0, 0] 0 2 0 0 none
      = ReadResult.err "Did not fully de-compress" reader1 [0, 0] :=
  spec_c7 decompBad reader1 0 blk1 [] [0, 0] 0 2 0 0 none 0 []
    (by decide) rfl (Or.inl rfl)

theorem bgzfRead_short_no_ok (decomp : DecompFn) (r : BgzfReader) (b : List Nat)
    (off len : Nat) (hb : b.length ≠ 0) (hoff : off ≤ b.length) (h0 : 0 < len)
    (hshort : len < b.length - off) (hpos : r.pos < r.input_length) :
    ∀ (cb : Int) (r2 : BgzfReader) (b2 : List Nat),
      bgzfRead decomp r b off len ≠ ReadResult.ok cb r2 b2 := by
  intro cb r2 b2 h
  rw [bgzfRead_checks decomp r b off len hb (by omega) (by omega) (by omega)
    (by omega)] at h
  rcases hcc : r.cache with _ | c
  · rw [cacheStep_none decomp r b off len hcc] at h
    obtain ⟨h1, h2⟩ := resolveAndLoop_ok_tail _ _ _ _ _ _ _ _ _ _ _ h h0
    omega
  · by_cases hle : c.pos ≤ r.pos
    · by_cases hpast : c.pos + c.uncompressed_data.length < r.pos
      · rw [cacheStep_pastEnd decomp r b off len c hcc hle hpast] at h; cases h
      · by_cases hin : r.pos < c.pos + c.uncompressed_data.length
        · have hk : min (c.pos + c.uncompressed_data.length - r.pos) len
              ≠ b.length - off := by
            have := Nat.min_le_right (c.pos + c.uncompressed_data.length - r.pos) len
            omega
          rw [cacheStep_hit_crash decomp r b off len c hcc hle hin hk] at h; cases h
        · have hend : r.pos = c.pos + c.uncompressed_data.length := by omega
          rw [cacheStep_atEnd decomp r b off len c hcc hle hend] at h
          obtain ⟨h1, h2⟩ := resolveAndLoop_ok_tail _ _ _ _ _ _ _ _ _ _ _ h h0
          omega
    · rw [cacheStep_low decomp r b off len c hcc (by omega)] at h
      obtain ⟨h1, h2⟩ := resolveAndLoop_ok_tail _ _ _ _ _ _ _ _ _ _ _ h h0
      omega

theorem bgzfRead_ok_pos_tail (decomp : DecompFn) (r : BgzfReader) (b : List Nat)
    (off len : Nat) (cb : Int) (r2 : BgzfReader) (b2 : List Nat)
    (h : bgzfRead decomp r b off len = ReadResult.ok cb r2 b2) (hcb : 0 < cb) :
    off + len = b.length := by
  by_cases hb : b.length = 0
  · unfold bgzfRead at h; rw [if_pos hb] at h; cases h
  · by_cases hoff : b.length < off
    · unfold bgzfRead at h; rw [if_neg hb, if_pos hoff] at h; cases h
    · by_cases hlen : b.length - off < len
      · unfold bgzfRead at h; rw [if_neg hb, if_neg hoff, if_pos hlen] at h; cases h
      · by_cases h0 : len = 0
        · unfold bgzfRead at h
          rw [if_neg hb, if_neg hoff, if_neg hlen, if_pos h0] at h
          cases h
          omega
        · by_cases hpos : r.input_length ≤ r.pos
          · unfold bgzfRead at h
            rw [if_neg hb, if_neg hoff, if_neg hlen, if_neg h0, if_pos hpos] at h
            cases h
            omega
          · by_cases hshort : len < b.length - off
            · exact absurd h (bgzfRead_short_no_ok decomp r b off len hb (by omega)
                (by omega) hshort (by omega) cb r2 b2)
            · omega

/-- C10: every byte-copy step of `read` writes through `copy_from_slice` into
the destination tail `b[off..]`, which requires the copied window to fill that
tail exactly. Consequently: (1) a read that returns `Ok` with a positive count
had `off + len = b.len()` at entry; (2) once the preliminary checks pass, a
request with `len < b.len() - off` can never return `Ok` — any copy step
would be shorter than the remaining tail; (3) a cache hit whose clamped window
differs from the remaining tail panics; (4) a per-block copy whose window
differs from the remaining tail panics. -/
theorem spec_c10 (decomp : DecompFn) (r : BgzfReader) (b : List Nat) (off len : Nat) :
    (∀ (cb : Int) (r2 : BgzfReader) (b2 : List Nat),
      bgzfRead decomp r b off len = ReadResult.ok cb r2 b2 → 0 < cb →
        off + len = b.length)
    ∧ (b.length ≠ 0 → off ≤ b.length → 0 < len → len < b.length - off →
        r.pos < r.input_length →
        ∀ (cb : Int) (r2 : BgzfReader) (b2 : List Nat),
          bgzfRead decomp r b off len ≠ ReadResult.ok cb r2 b2)
    ∧ (∀ c : Cache, r.cache = some c → b.length ≠ 0 → off ≤ b.length →
        off + len ≤ b.length → 0 < len → r.pos < r.input_length →
        c.pos ≤ r.pos → r.pos < c.pos + c.uncompressed_data.length →
        min (c.pos + c.uncompressed_data.length - r.pos) len ≠ b.length - off →
        bgzfRead decomp r b off len = ReadResult.crash)
    ∧ (∀ (k : Nat) (blk : BgzfBlock) (rest : List (Nat × BgzfBlock)) (cb : Int)
        (pos : Nat) (cache : Option Cache) (n cs w : Nat) (out : List Nat),
        readExactOk r.bgzf_file blk.data_offset blk.data_length = true →
        decomp ((r.bgzf_file.drop blk.data_offset).take blk.data_length)
          blk.input_length = some (n, out) →
        ¬ (n = 0 ∨ n ≠ blk.input_length) →
        blockWindow blk k pos len = some (cs, w) →
        cs + w ≤ (uncompressedBuf blk out).length →
        off ≤ b.length →
        w ≠ b.length - off →
        readLoop decomp r ((k, blk) :: rest) b off len cb pos cache
          = ReadResult.crash) := by
  refine ⟨?_, ?_, ?_, ?_⟩
  · intro cb r2 b2 h hcb
    exact bgzfRead_ok_pos_tail decomp r b off len cb r2 b2 h hcb
  · intro hb hoff h0 hshort hpos
    exact bgzfRead_short_no_ok decomp r b off len hb hoff h0 hshort hpos
  · intro c hc hb hoff hlen h0 hpos hle hin hk
    rw [bgzfRead_checks decomp r b off len hb (by omega) (by omega) (by omega)
      (by omega)]
    exact cacheStep_hit_crash decomp r b off len c hc hle hin hk
  · intro k blk rest cb pos cache n cs w out hio hdec hn hwin hsl hoffle hw
    simp only [readLoop, hdec, hwin]
    rw [if_neg (not_not_intro hio), if_neg hn, if_neg (by omega :
      ¬ (uncompressedBuf blk out).length < cs + w), if_neg (by omega :
      ¬ b.length < off), if_pos hw]

/-- C10 witness: a cache hit that can serve only 1 byte while the remaining
destination tail is 2 bytes long panics. -/
theorem spec_c10_witness :
    bgzfRead decomp0 ⟨[], [], 5, 0, 0, some ⟨0, [1, 2, 3]⟩⟩ [0, 0] 0 1
      = ReadResult.crash :=
  (spec_c10 decomp0 ⟨[], [], 5, 0, 0, some ⟨0, [1, 2, 3]⟩⟩ [0, 0] 0 1).2.2.1
    ⟨0, [1, 2, 3]⟩ rfl (by decide) (by decide) (by decide) (by decide) (by decide)
    (by decide) (by decide) (by decide)

theorem uncompressedBuf_length (blk : BgzfBlock) (out : List Nat) :
    (uncompressedBuf blk out).length = blk.input_length := by
  simp [uncompressedBuf]
  omega

theorem listCopyInto_full (n : Nat) (src : List Nat) (h : src.length = n) :
    listCopyInto (List.replicate n 0) 0 src = src := by
  simp [listCopyInto, h]

theorem resolveAndLoop_single (decomp : DecompFn) (r0 : BgzfReader) (b : List Nat)
    (off len : Nat) (cb : Int) (cache : Option Cache) (blk : BgzfBlock)
    (htree : r0.block_tree = [(0, blk)]) (hlen : 0 < len) :
    resolveAndLoop decomp r0 b off len cb 0 cache
      = readLoop decomp r0 [(0, blk)] b off len cb 0 cache := by
  unfold resolveAndLoop resolveEntries
  rw [htree]
  have hck : containsKey [(0, blk)] 0 = true := by simp [containsKey]
  rw [if_pos hck]
  have hrg : rangeCo [(0, blk)] 0 (0 + len) = [(0, blk)] := by
    simp [rangeCo]
    omega
  rw [hrg]

theorem singleBlockFirstRead (decomp : DecompFn) (file : List Nat) (blk : BgzfBlock)
    (crp : Nat) (out : List Nat) (n : Nat)
    (hn : 0 < n) (hnle : n ≤ blk.input_length) (hsmall : blk.input_length < 2147483648)
    (hio : readExactOk file blk.data_offset blk.data_length = true)
    (hdec : decomp ((file.drop blk.data_offset).take blk.data_length) blk.input_length
      = some (blk.input_length, out)) :
    bgzfRead decomp ⟨file, [(0, blk)], blk.input_length, crp, 0, none⟩
      (List.replicate n 0) 0 n
      = ReadResult.ok (n : Int)
          ⟨file, [(0, blk)], blk.input_length, crp, n, some ⟨0, uncompressedBuf blk out⟩⟩
          ((uncompressedBuf blk out).take n) := by
  have hblen : (List.replicate n (0 : Nat)).length = n := List.length_replicate _ _
  rw [bgzfRead_checks decomp _ (List.replicate n 0) 0 n (by omega) (by omega) (by omega)
    (by omega) (by simpa using (by omega : ¬ blk.input_length ≤ 0))]
  rw [cacheStep_none decomp _ (List.replicate n 0) 0 n rfl]
  rw [resolveAndLoop_single decomp _ (List.replicate n 0) 0 n 0 none blk rfl hn]
  have hwin : blockWindow blk 0 0 n = some (0, n) := by
    unfold blockWindow
    rw [if_neg (lt_irrefl 0)]
    have hm : n % 4294967296 = n := Nat.mod_eq_of_lt (by omega)
    rw [hm, Nat.min_eq_right hnle]
  simp only [readLoop, hdec, hwin]
  rw [if_neg (not_not_intro hio), if_neg (by omega : ¬ (blk.input_length = 0 ∨
    blk.input_length ≠ blk.input_length))]
  rw [if_neg (by rw [uncompressedBuf_length]; omega :
    ¬ (uncompressedBuf blk out).length < 0 + n)]
  rw [if_neg (by omega : ¬ (List.replicate n (0 : Nat)).length < 0)]
  rw [if_neg (by rw [hblen]; omega : ¬ n ≠ (List.replicate n (0 : Nat)).length - 0)]
  rw [i32add_zero, i32ofU_small n (by omega)]
  simp only [readLoop, List.drop_zero, Nat.zero_add]
  rw [listCopyInto_full n ((uncompressedBuf blk out).take n)
    (by rw [List.length_take, uncompressedBuf_length]; omega)]

theorem cacheServedRead (decomp : DecompFn) (file : List Nat)
    (tree : List (Nat × BgzfBlock)) (T crp p n : Nat) (B : List Nat)
    (hn : 0 < n) (hpn : p + n ≤ B.length) (hsmall : n < 2147483648) (hpT : p < T) :
    bgzfRead decomp ⟨file, tree, T, crp, p, some ⟨0, B⟩⟩ (List.replicate n 0) 0 n
      = ReadResult.ok (n : Int) ⟨file, tree, T, crp, p + n, some ⟨0, B⟩⟩
          ((B.drop p).take n) := by
  have hblen : (List.replicate n (0 : Nat)).length = n := List.length_replicate _ _
  rw [bgzfRead_checks decomp _ (List.replicate n 0) 0 n (by omega) (by omega) (by omega)
    (by omega) (by simp only [] ; exact (by omega : ¬ T ≤ p))]
  have hcopy := cacheStep_hit_copy decomp ⟨file, tree, T, crp, p, some ⟨0, B⟩⟩
    (List.replicate n 0) 0 n ⟨0, B⟩ rfl (by simp)
    (by simpa using (by omega : p < B.length))
    (by simpa using (by omega : min (B.length - p) n = n)) (by omega)
  rw [hcopy, i32ofU_small n (by omega)]
  have htk : ((B.drop (p - 0)).take n).length = n := by
    rw [List.length_take, List.length_drop]
    omega
  rw [listCopyInto_full n _ htk]
  have hd : p - 0 = p := by omega
  rw [hd]

theorem seqReads_cached (decomp : DecompFn) (file : List Nat)
    (tree : List (Nat × BgzfBlock)) (T crp : Nat) (B : List Nat) :
    ∀ (parts : List Nat) (p : Nat), (∀ m ∈ parts, 0 < m) → p + parts.sum ≤ B.length →
      B.length = T → T < 2147483648 →
      seqReads decomp ⟨file, tree, T, crp, p, some ⟨0, B⟩⟩ parts
        = some ((B.drop p).take parts.sum,
            ⟨file, tree, T, crp, p + parts.sum, some ⟨0, B⟩⟩) := by
  intro parts
  induction parts with
  | nil =>
    intro p hall hsum hBT hT31
    simp [seqReads]
  | cons m ms ih =>
    intro p hall hsum hBT hT31
    have hm : 0 < m := hall m (List.mem_cons_self _ _)
    have hsums : m + ms.sum = (m :: ms).sum := by simp
    have hcall := cacheServedRead decomp file tree T crp p m B hm (by simp at hsum; omega)
      (by simp at hsum; omega) (by simp at hsum; omega)
    simp only [seqReads, hcall]
    rw [if_pos trivial]
    rw [ih (p + m) (fun x hx => hall x (List.mem_cons_of_mem _ hx))
      (by simp at hsum ⊢; omega) hBT hT31]
    have htake : (B.drop p).take (m :: ms).sum
        = (B.drop p).take m ++ (B.drop (p + m)).take ms.sum := by
      have h1 : (m :: ms).sum = m + ms.sum := by simp
      rw [h1, List.take_add, List.drop_drop]
    have hpos2 : p + m + ms.sum = p + (m :: ms).sum := by simp; omega
    rw [htake, hpos2]

/-- C1, counterexample to the claim as stated: `file2` is a readable two-block
BGZF file (construction succeeds with two indexed blocks, and each block's
compressed payload decompresses to exactly its declared uncompressed length),
yet reading the entire 2-byte logical stream in one call panics: the first
block's 1-byte copy window cannot fill the 2-byte destination tail demanded by
`copy_from_slice`. -/
theorem spec_c1_counterexample :
    bgzfNew (some file2) = NewResult.ok reader2
    ∧ decomp0 ((file2.drop 18).take 1) 1 = some (1, [65])
    ∧ decomp0 ((file2.drop 45).take 1) 1 = some (1, [65])
    ∧ reader2.input_length = 2
    ∧ bgzfRead decomp0 reader2 (List.replicate 2 0) 0 2 = ReadResult.crash := by
  exact ⟨rfl, rfl, rfl, rfl, rfl⟩

/-- C1 (amended): for every readable BGZF file whose index contains exactly one
block (its payload reads succeed and decompress to exactly the declared
uncompressed length, which fits an `i32`), and every partition of the logical
stream `[0, total)` into consecutive nonempty sub-intervals, reading the whole
stream in one call and reading it via one sequential call per sub-interval
(each into a fresh buffer of exactly that sub-interval's length) both succeed,
every call returns exactly the requested byte count, and the bytes agree. -/
theorem spec_c1 (decomp : DecompFn) (file : List Nat) (r : BgzfReader)
    (blk : BgzfBlock) (out : List Nat) (parts : List Nat)
    (hnew : bgzfNew (some file) = NewResult.ok r)
    (htree : r.block_tree = [(0, blk)])
    (hio : readExactOk file blk.data_offset blk.data_length = true)
    (hdec : decomp ((file.drop blk.data_offset).take blk.data_length) blk.input_length
      = some (blk.input_length, out))
    (hsmall : blk.input_length < 2147483648)
    (hparts : ∀ m ∈ parts, 0 < m)
    (hsum : parts.sum = blk.input_length) :
    bgzfRead decomp r (List.replicate blk.input_length 0) 0 blk.input_length
      = ReadResult.ok (blk.input_length : Int)
          { r with pos := blk.input_length, cache := some ⟨0, uncompressedBuf blk out⟩ }
          (uncompressedBuf blk out)
    ∧ seqReads decomp r parts
      = some (uncompressedBuf blk out,
          { r with pos := blk.input_length, cache := some ⟨0, uncompressedBuf blk out⟩ }) := by
  obtain ⟨hf, hp, hc, hcrp, hwf, hlenS⟩ := bgzfNew_ok file r hnew
  have hn0 : blk.input_length ≠ 0 := by
    rw [htree] at hwf
    exact ((indexWF_cons 0 0 blk []).mp hwf).2.1
  have hT : r.input_length = blk.input_length := by
    rw [hlenS, htree]
    simp [sumLens]
  cases r with
  | mk bf bt il crp pos cc =>
    dsimp only at hf hp hc hcrp hT htree
    subst hf
    subst hp
    subst hc
    subst hcrp
    subst hT
    subst htree
    constructor
    · have h := singleBlockFirstRead decomp bf blk 0 out blk.input_length
        (Nat.pos_of_ne_zero hn0) (le_refl _) hsmall hio hdec
      have htk : (uncompressedBuf blk out).take blk.input_length
          = uncompressedBuf blk out := by
        conv_lhs => rw [← uncompressedBuf_length blk out]
        exact List.take_length _
      rw [h, htk]
    · cases parts with
      | nil =>
        exfalso
        simp at hsum
        exact hn0 hsum.symm
      | cons m ms =>
        have hm : 0 < m := hparts m (List.mem_cons_self _ _)
        have hmsum : m + ms.sum = blk.input_length := by simpa using hsum
        have hfirst := singleBlockFirstRead decomp bf blk 0 out m hm (by omega)
          hsmall hio hdec
        simp only [seqReads, hfirst]
        rw [if_pos trivial]
        have hrest := seqReads_cached decomp bf [(0, blk)] blk.input_length 0
          (uncompressedBuf blk out) ms m
          (fun x hx => hparts x (List.mem_cons_of_mem _ hx))
          (by rw [uncompressedBuf_length]; omega) (uncompressedBuf_length blk out) hsmall
        simp only [hrest]
        have hconcat : (uncompressedBuf blk out).take m
            ++ ((uncompressedBuf blk out).drop m).take ms.sum
            = uncompressedBuf blk out := by
          rw [← List.take_add, hmsum]
          conv_lhs => rw [← uncompressedBuf_length blk out]
          exact List.take_length _
        rw [hconcat, hmsum]

/-- C1 witness: the concrete one-block file read whole in one call and via the
partition `[1, 1]` yields the same two bytes, every call succeeding with the
requested count. -/
theorem spec_c1_witness :
    bgzfRead decomp0 reader1 (List.replicate 2 0) 0 2
      = ReadResult.ok 2 ⟨file1, [(0, blk1)], 2, 0, 2, some ⟨0, [65, 65]⟩⟩ [65, 65]
    ∧ seqReads decomp0 reader1 [1, 1]
      = some ([65, 65], ⟨file1, [(0, blk1)], 2, 0, 2, some ⟨0, [65, 65]⟩⟩) :=
  spec_c1 decomp0 file1 reader1 blk1 (List.replicate 2 65) [1, 1] (by decide) rfl
    (by decide) rfl (by decide) (by decide) rfl

theorem readBlockFooter_ok_some_size (file : List Nat) (d_off d_len bs : Nat)
    (blk : BgzfBlock) (h : readBlockFooter file d_off d_len bs = RBResult.ok (some blk)) :
    blk.block_size = bs := by
  simp only [readBlockFooter] at h
  split_ifs at h with h1 h2 <;> cases h
  rfl

theorem readBlockExtra_ok_some_size (file : List Nat) (p1 xlen : Nat) (blk : BgzfBlock)
    (h : readBlockExtra file p1 xlen = RBResult.ok (some blk)) :
    1 ≤ blk.block_size := by
  simp only [readBlockExtra] at h
  split_ifs at h
  all_goals first
    | cases h
    | (rw [readBlockFooter_ok_some_size _ _ _ _ _ h]; omega)

theorem readBlock_ok_some_size (file : List Nat) (p : Nat) (blk : BgzfBlock)
    (h : readBlock file p = RBResult.ok (some blk)) :
    p + 12 ≤ file.length ∧ 1 ≤ blk.block_size := by
  simp only [readBlock] at h
  split_ifs at h
  all_goals first
    | cases h
    | exact ⟨by omega, readBlockExtra_ok_some_size _ _ _ _ h⟩

theorem buildLoop_fuel (file : List Nat) :
    ∀ (fuel1 fuel2 : Nat) (t : List (Nat × BgzfBlock)) (o p : Nat),
      file.length - p < fuel1 → file.length - p < fuel2 →
      buildLoop file fuel1 t o p = buildLoop file fuel2 t o p := by
  intro fuel1
  induction fuel1 with
  | zero => intro fuel2 t o p h1 h2; omega
  | succ n ih =>
    intro fuel2 t o p h1 h2
    cases fuel2 with
    | zero => omega
    | succ m =>
      simp only [buildLoop]
      cases hrb : readBlock file p with
      | crash => simp only [hrb]
      | err => simp only [hrb]
      | ok ob =>
        cases ob with
        | none => simp only [hrb]
        | some blk =>
          simp only [hrb]
          obtain ⟨hle, hbs⟩ := readBlock_ok_some_size file p blk hrb
          exact ih m (t ++ [(o, blk)]) (o + blk.input_length) (p + blk.block_size)
            (by omega) (by omega)

theorem bgzfNew_fuel_stable (file : List Nat) (fuel : Nat) (h : file.length < fuel) :
    buildLoop file fuel [] 0 0 = buildLoop file (file.length + 1) [] 0 0 :=
  buildLoop_fuel file fuel (file.length + 1) [] 0 0 (by omega) (by omega)
